import Mathlib

/-!
Verification of the FE-sort curve topology reconstruction algorithm
(`FEsort` in `TSurf/python/tsurf_geometry.py`).

The Python function receives `barsConn`, a list of bar elements (each a
list of vertex indices, in practice a pair `[a, b]`), and stitches them
into maximal polylines by a fixed-point loop: on each pass it seeds the
working list with the first element and tries to link every further
element to the head or tail of some working polyline, scanning working
polylines in order and applying the first of four matching rules;
unlinked elements start new working polylines.  The loop repeats while a
pass performed at least one link.  Finally each polyline (a vertex list)
is converted back to finite-element format: the list of its consecutive
vertex pairs.

The embedding below mirrors the source line by line:
  * `headV l` / `lastV l` are Python's `l[0]` / `l[-1]` (total here via a
    default; all lists occurring in the algorithm are nonempty, and the
    theorems carry the corresponding hypotheses);
  * `linkStep` is the `for newElement in newConn` scan with its four
    rules, updating the first matching polyline in place;
  * `passAux` / `onePass` are one round of the inner
    `while len(oldConn) > 0` loop: the working list is seeded with the
    popped first element and elements are processed in order;
  * `FEsortLoop` is the outer `while keep_searching` loop, written with
    fuel; `FEsortLoop_fixed` below shows that fuel `conn.length` is never
    exhausted, so the fuelled function equals the unbounded loop;
  * `FEsortPolylines` returns `none` exactly when the Python code raises
    (an uncaught `IndexError` from `oldConn.pop(0)` on empty input);
  * `FEsort` adds the final conversion of each polyline to the list of
    its consecutive vertex pairs (the Python code stores these pairs in
    a 2×(k-1) float array; the values are the same integers).
-/

/-- Python `l[0]`: head of a vertex list (all lists in play are nonempty). -/
def headV (l : List Nat) : Nat := l.headD 0

/-- Python `l[-1]`: last entry of a vertex list. -/
def lastV (l : List Nat) : Nat := l.getLastD 0

/-- One scan of `for newElement in newConn` for a fixed `oldElement`:
find the first working polyline matching one of the four rules and
replace it by the merged polyline; `none` if no polyline matches. -/
def linkStep (oldElement : List Nat) : List (List Nat) → Option (List (List Nat))
  | [] => none
  | ne :: rest =>
    if headV oldElement = headV ne then
      some ((oldElement.reverse ++ ne.tail) :: rest)
    else if headV oldElement = lastV ne then
      some ((ne.dropLast ++ oldElement) :: rest)
    else if lastV oldElement = headV ne then
      some ((oldElement ++ ne.tail) :: rest)
    else if lastV oldElement = lastV ne then
      some ((ne.dropLast ++ oldElement.reverse) :: rest)
    else
      (linkStep oldElement rest).map (fun conn => ne :: conn)

/-- The inner `while len(oldConn) > 0` loop: process the remaining old
elements in order, linking each into the working list or appending it as
a new polyline; the boolean accumulates `keep_searching`. -/
def passAux : List (List Nat) → List (List Nat) → Bool → List (List Nat) × Bool
  | [], newConn, changed => (newConn, changed)
  | oldElement :: rest, newConn, changed =>
    match linkStep oldElement newConn with
    | some newConn2 => passAux rest newConn2 true
    | none => passAux rest (newConn ++ [oldElement]) changed

/-- One full pass of the outer loop: seed the working list with the first
element, then run the inner loop over the rest.  (The empty case is
unreachable: the Python code raises before the loop on empty input, and
pass results are never empty.) -/
def onePass (conn : List (List Nat)) : List (List Nat) × Bool :=
  match conn with
  | [] => ([], false)
  | first :: rest => passAux rest [first] false

/-- The outer `while keep_searching` loop, with fuel.  `fuelSufficient`
shows fuel `conn.length` always reaches the fixed point, so the fuel is
an artifact of the embedding, not a behavioural difference. -/
def FEsortLoop : Nat → List (List Nat) → List (List Nat)
  | 0, conn => conn
  | fuel + 1, conn =>
    if (onePass conn).2 then FEsortLoop fuel (onePass conn).1 else (onePass conn).1

/-- `FEsort` up to (but not including) the final FE-format conversion:
the list of stitched polylines as vertex lists.  `none` models the
uncaught `IndexError` the Python code raises on empty input
(`oldConn.pop(0)` with `oldConn == []`). -/
def FEsortPolylines (barsConn : List (List Nat)) : Option (List (List Nat)) :=
  match barsConn with
  | [] => none
  | _ :: _ => some (FEsortLoop barsConn.length barsConn)

/-- The consecutive vertex pairs of a vertex list: `[v0,...,vk]` becomes
`[(v0,v1),...,(v(k-1),vk)]`.  This is exactly the FE conversion loop at
the end of `FEsort` (which stores the two vertices of pair `i` in column
`i` of a 2×k array). -/
def pairsOf (l : List Nat) : List (Nat × Nat) := l.zip l.tail

/-- The full `FEsort`: stitch, then convert each polyline to FE format. -/
def FEsort (barsConn : List (List Nat)) : Option (List (List (Nat × Nat))) :=
  (FEsortPolylines barsConn).map (List.map pairsOf)

/-- The caller's check in `getCGNSsections`: use the sorted connectivity
when `FEsort` did not return `None`, otherwise fall back to the original
unsorted bars (converted to pairs here so both branches have one type). -/
def sortedOrFallback (barsConn : List (List Nat)) : List (List (Nat × Nat)) :=
  match FEsort barsConn with
  | some sortedConn => sortedConn
  | none => barsConn.map (fun e => pairsOf e)

/-- Direction-insensitive normal form of an edge: the smaller vertex first. -/
def normPair (p : Nat × Nat) : Nat × Nat := if p.1 ≤ p.2 then p else (p.2, p.1)

/-- The multiset of direction-insensitive edges carried by one vertex list. -/
def msPairs (l : List Nat) : Multiset (Nat × Nat) :=
  ((pairsOf l).map normPair : List (Nat × Nat))

/-- The multiset of direction-insensitive edges carried by a list of
vertex lists (works both for the input bar list, whose elements are
2-lists, and for the output polylines). -/
def edgeMS (conn : List (List Nat)) : Multiset (Nat × Nat) :=
  (conn.map msPairs).sum

/-- `e` is a bar element: a list of exactly two vertex indices. -/
def isBar (e : List Nat) : Prop := e.length = 2

instance (e : List Nat) : Decidable (isBar e) := by
  unfold isBar; infer_instance

theorem isBar_iff {e : List Nat} : isBar e ↔ ∃ a b, e = [a, b] := by
  constructor
  · intro h
    match e, h with
    | [a, b], _ => exact ⟨a, b, rfl⟩
  · intro ⟨a, b, h⟩
    rw [h]
    rfl

/-- Number of incidences of vertex `w` in the input edge list: the sum of
the occurrence counts of `w` in each bar (a self-loop counts twice). -/
def degCount (w : Nat) (E : List (List Nat)) : Nat :=
  (E.map (fun e => e.count w)).sum

/-- Every vertex has edge-degree at most two. -/
def DegLE2 (E : List (List Nat)) : Prop := ∀ w, degCount w E ≤ 2

/-- Valid input in the sense of the specification: bar elements with two
distinct endpoints, no duplicate (direction-insensitive) edge, and every
vertex of degree at most two. -/
def ValidInput (E : List (List Nat)) : Prop :=
  (∀ e ∈ E, isBar e ∧ headV e ≠ lastV e) ∧
    (E.map (fun e => normPair (headV e, lastV e))).Nodup ∧ DegLE2 E

/-- The disjunction of the four matching rules of the inner scan:
`oldElement` can attach to polyline `x` iff one of its endpoints equals
an endpoint of `x`. -/
def matchP (e x : List Nat) : Prop :=
  headV e = headV x ∨ headV e = lastV x ∨ lastV e = headV x ∨ lastV e = lastV x

instance (e x : List Nat) : Decidable (matchP e x) := by
  unfold matchP; infer_instance

theorem matchP_symm {e x : List Nat} (h : matchP e x) : matchP x e := by
  unfold matchP at h ⊢; tauto

theorem linkStep_some_of_matchP {e ne : List Nat} (rest : List (List Nat))
    (h : matchP e ne) : ∃ m rest2, linkStep e (ne :: rest) = some (m :: rest2) := by
  unfold linkStep
  by_cases h1 : headV e = headV ne
  · exact ⟨_, _, by rw [if_pos h1]⟩
  · by_cases h2 : headV e = lastV ne
    · exact ⟨_, _, by rw [if_neg h1, if_pos h2]⟩
    · by_cases h3 : lastV e = headV ne
      · exact ⟨_, _, by rw [if_neg h1, if_neg h2, if_pos h3]⟩
      · by_cases h4 : lastV e = lastV ne
        · exact ⟨_, _, by rw [if_neg h1, if_neg h2, if_neg h3, if_pos h4]⟩
        · exact absurd h (by unfold matchP; tauto)

theorem linkStep_skip {e ne : List Nat} (rest : List (List Nat))
    (h : ¬ matchP e ne) :
    linkStep e (ne :: rest) = (linkStep e rest).map (fun conn => ne :: conn) := by
  have h1 : ¬ headV e = headV ne := fun hc => h (Or.inl hc)
  have h2 : ¬ headV e = lastV ne := fun hc => h (Or.inr (Or.inl hc))
  have h3 : ¬ lastV e = headV ne := fun hc => h (Or.inr (Or.inr (Or.inl hc)))
  have h4 : ¬ lastV e = lastV ne := fun hc => h (Or.inr (Or.inr (Or.inr hc)))
  conv_lhs => rw [linkStep]
  rw [if_neg h1, if_neg h2, if_neg h3, if_neg h4]

theorem linkStep_eq_none_iff (e : List Nat) :
    ∀ conn, linkStep e conn = none ↔ ∀ x ∈ conn, ¬ matchP e x := by
  intro conn
  induction conn with
  | nil => simp [linkStep]
  | cons ne rest ih =>
    by_cases hm : matchP e ne
    · obtain ⟨m, rest2, hsome⟩ := linkStep_some_of_matchP rest hm
      rw [hsome]
      constructor
      · intro h; exact absurd h (by simp)
      · intro h; exact absurd hm (h ne (by simp))
    · rw [linkStep_skip rest hm]
      simp only [Option.map_eq_none', List.mem_cons]
      constructor
      · intro h x hx
        rcases hx with rfl | hx
        · exact hm
        · exact (ih.mp h) x hx
      · intro h
        exact ih.mpr (fun x hx => h x (Or.inr hx))

theorem linkStep_cases {e ne : List Nat} {rest conn2 : List (List Nat)}
    (h : linkStep e (ne :: rest) = some conn2) :
    (headV e = headV ne ∧ conn2 = (e.reverse ++ ne.tail) :: rest) ∨
    (headV e ≠ headV ne ∧ headV e = lastV ne ∧ conn2 = (ne.dropLast ++ e) :: rest) ∨
    (headV e ≠ headV ne ∧ headV e ≠ lastV ne ∧ lastV e = headV ne ∧
      conn2 = (e ++ ne.tail) :: rest) ∨
    (headV e ≠ headV ne ∧ headV e ≠ lastV ne ∧ lastV e ≠ headV ne ∧ lastV e = lastV ne ∧
      conn2 = (ne.dropLast ++ e.reverse) :: rest) ∨
    (¬ matchP e ne ∧ ∃ c2, linkStep e rest = some c2 ∧ conn2 = ne :: c2) := by
  by_cases h1 : headV e = headV ne
  · left
    refine ⟨h1, ?_⟩
    unfold linkStep at h
    rw [if_pos h1] at h
    exact (Option.some.injEq _ _ ▸ h).symm
  · by_cases h2 : headV e = lastV ne
    · right; left
      refine ⟨h1, h2, ?_⟩
      unfold linkStep at h
      rw [if_neg h1, if_pos h2] at h
      exact (Option.some.injEq _ _ ▸ h).symm
    · by_cases h3 : lastV e = headV ne
      · right; right; left
        refine ⟨h1, h2, h3, ?_⟩
        unfold linkStep at h
        rw [if_neg h1, if_neg h2, if_pos h3] at h
        exact (Option.some.injEq _ _ ▸ h).symm
      · by_cases h4 : lastV e = lastV ne
        · right; right; right; left
          refine ⟨h1, h2, h3, h4, ?_⟩
          unfold linkStep at h
          rw [if_neg h1, if_neg h2, if_neg h3, if_pos h4] at h
          exact (Option.some.injEq _ _ ▸ h).symm
        · right; right; right; right
          have hm : ¬ matchP e ne := by unfold matchP; tauto
          refine ⟨hm, ?_⟩
          rw [linkStep_skip rest hm] at h
          obtain ⟨c2, hc2, rfl⟩ := Option.map_eq_some'.mp h
          exact ⟨c2, hc2, rfl⟩

theorem linkStep_length {e : List Nat} :
    ∀ {conn conn2}, linkStep e conn = some conn2 → conn2.length = conn.length := by
  intro conn
  induction conn with
  | nil => intro conn2 h; simp [linkStep] at h
  | cons ne rest ih =>
    intro conn2 h
    rcases linkStep_cases h with ⟨_, rfl⟩ | ⟨_, _, rfl⟩ | ⟨_, _, _, rfl⟩ |
      ⟨_, _, _, _, rfl⟩ | ⟨_, c2, hc2, rfl⟩
    · simp
    · simp
    · simp
    · simp
    · simp [ih hc2]

theorem passAux_fst_flag (old : List (List Nat)) :
    ∀ new c, (passAux old new c).1 = (passAux old new false).1 := by
  induction old with
  | nil => intro new c; simp [passAux]
  | cons e rest ih =>
    intro new c
    unfold passAux
    cases h : linkStep e new with
    | some new2 => simp
    | none => simp [ih (new ++ [e]) c, ih (new ++ [e]) false]

theorem passAux_flag_true (old : List (List Nat)) :
    ∀ new, (passAux old new true).2 = true := by
  induction old with
  | nil => intro new; simp [passAux]
  | cons e rest ih =>
    intro new
    unfold passAux
    cases h : linkStep e new with
    | some new2 => simp [ih]
    | none => simp [ih]

theorem passAux_flag_mono {old : List (List Nat)} {new c} (h : c = true) :
    (passAux old new c).2 = true := by
  subst h; exact passAux_flag_true old new

theorem passAux_link_eq {e : List Nat} {rest new new2 : List (List Nat)} {c : Bool}
    (hl : linkStep e new = some new2) :
    passAux (e :: rest) new c = passAux rest new2 true := by
  conv_lhs => rw [passAux]
  rw [hl]

theorem passAux_nolink_eq {e : List Nat} {rest new : List (List Nat)} {c : Bool}
    (hl : linkStep e new = none) :
    passAux (e :: rest) new c = passAux rest (new ++ [e]) c := by
  conv_lhs => rw [passAux]
  rw [hl]

theorem passAux_no_change {old : List (List Nat)} :
    ∀ {new c}, (passAux old new c).2 = false → (passAux old new c).1 = new ++ old := by
  induction old with
  | nil => intro new c _; simp [passAux]
  | cons e rest ih =>
    intro new c h
    cases hl : linkStep e new with
    | some new2 =>
      rw [passAux_link_eq hl] at h
      rw [passAux_flag_true] at h
      exact absurd h (by simp)
    | none =>
      rw [passAux_nolink_eq hl] at h ⊢
      rw [ih h]
      simp

theorem passAux_no_change_links {old : List (List Nat)} :
    ∀ {new c}, (passAux old new c).2 = false →
      ∀ pre e suf, old = pre ++ e :: suf → linkStep e (new ++ pre) = none := by
  induction old with
  | nil =>
    intro new c _ pre e suf habs
    exact absurd habs (by simp)
  | cons f rest ih =>
    intro new c h pre e suf hsplit
    cases hl : linkStep f new with
    | some new2 =>
      rw [passAux_link_eq hl] at h
      rw [passAux_flag_true] at h
      exact absurd h (by simp)
    | none =>
      rw [passAux_nolink_eq hl] at h
      cases pre with
      | nil =>
        simp at hsplit
        obtain ⟨rfl, rfl⟩ := hsplit
        simpa using hl
      | cons p ps =>
        simp at hsplit
        obtain ⟨rfl, hrest⟩ := hsplit
        have := ih h ps e suf hrest
        simpa [List.append_assoc] using this

theorem passAux_length_le (old : List (List Nat)) :
    ∀ new c, (passAux old new c).1.length ≤ new.length + old.length := by
  induction old with
  | nil => intro new c; simp [passAux]
  | cons e rest ih =>
    intro new c
    cases hl : linkStep e new with
    | some new2 =>
      rw [passAux_link_eq hl]
      have h1 := ih new2 true
      have h2 := linkStep_length hl
      simp only [List.length_cons]
      omega
    | none =>
      rw [passAux_nolink_eq hl]
      have h1 := ih (new ++ [e]) c
      have h2 : (new ++ [e]).length = new.length + 1 := by simp
      simp only [List.length_cons]
      omega

theorem passAux_decrease (old : List (List Nat)) :
    ∀ new, (passAux old new false).2 = true →
      (passAux old new false).1.length < new.length + old.length := by
  induction old with
  | nil => intro new h; simp [passAux] at h
  | cons e rest ih =>
    intro new h
    cases hl : linkStep e new with
    | some new2 =>
      rw [passAux_link_eq hl] at h ⊢
      have h1 := passAux_length_le rest new2 true
      have h2 := linkStep_length hl
      simp only [List.length_cons]
      omega
    | none =>
      rw [passAux_nolink_eq hl] at h ⊢
      have h1 := ih (new ++ [e]) h
      have h2 : (new ++ [e]).length = new.length + 1 := by simp
      simp only [List.length_cons]
      omega

theorem passAux_length_ge (old : List (List Nat)) :
    ∀ new c, new.length ≤ (passAux old new c).1.length := by
  induction old with
  | nil => intro new c; simp [passAux]
  | cons e rest ih =>
    intro new c
    cases hl : linkStep e new with
    | some new2 =>
      rw [passAux_link_eq hl]
      have h1 := ih new2 true
      have h2 := linkStep_length hl
      omega
    | none =>
      rw [passAux_nolink_eq hl]
      have h1 := ih (new ++ [e]) c
      have h2 : (new ++ [e]).length = new.length + 1 := by simp
      omega

theorem onePass_no_change {conn : List (List Nat)} (h : (onePass conn).2 = false) :
    (onePass conn).1 = conn := by
  cases conn with
  | nil => rfl
  | cons first rest =>
    have h2 : (passAux rest [first] false).1 = [first] ++ rest := passAux_no_change h
    simpa [onePass] using h2

theorem onePass_decrease {conn : List (List Nat)} (hne : conn ≠ [])
    (h : (onePass conn).2 = true) : (onePass conn).1.length < conn.length := by
  cases conn with
  | nil => exact absurd rfl hne
  | cons first rest =>
    have := passAux_decrease rest [first] h
    simp only [onePass, List.length_cons]
    simp only [List.length_cons, List.length_nil] at this
    omega

theorem onePass_length_pos {conn : List (List Nat)} (hne : conn ≠ []) :
    0 < (onePass conn).1.length := by
  cases conn with
  | nil => exact absurd rfl hne
  | cons first rest =>
    have := passAux_length_ge rest [first] false
    simp only [onePass]
    simp only [List.length_cons, List.length_nil] at this
    omega

/-- The outer loop has reached its fixed point: a further full pass would
change nothing (`keep_searching` stays `False`). -/
def AtFixedPoint (conn : List (List Nat)) : Prop := (onePass conn).2 = false

theorem FEsortLoop_fixed : ∀ fuel conn, conn ≠ [] → conn.length ≤ fuel →
    AtFixedPoint (FEsortLoop fuel conn) ∧
      ∀ m, fuel ≤ m → FEsortLoop m conn = FEsortLoop fuel conn := by
  intro fuel
  induction fuel with
  | zero =>
    intro conn hne hlen
    exact absurd (List.length_eq_zero.mp (Nat.le_zero.mp hlen)) hne
  | succ fuel ih =>
    intro conn hne hlen
    by_cases hp : (onePass conn).2 = true
    · have hlt := onePass_decrease hne hp
      have hpos := onePass_length_pos hne
      have hne2 : (onePass conn).1 ≠ [] := by
        intro habs; rw [habs] at hpos; simp at hpos
      have hlen2 : (onePass conn).1.length ≤ fuel := by omega
      obtain ⟨hfix, hmono⟩ := ih (onePass conn).1 hne2 hlen2
      have hstep : FEsortLoop (fuel + 1) conn = FEsortLoop fuel (onePass conn).1 := by
        rw [FEsortLoop, if_pos hp]
      constructor
      · rw [hstep]; exact hfix
      · intro m hm
        cases m with
        | zero => omega
        | succ m2 =>
          rw [FEsortLoop, if_pos hp, hstep]
          exact hmono m2 (by omega)
    · have hp2 : (onePass conn).2 = false := by
        cases h : (onePass conn).2
        · rfl
        · exact absurd h hp
      have hstep : FEsortLoop (fuel + 1) conn = (onePass conn).1 := by
        rw [FEsortLoop, if_neg hp]
      constructor
      · rw [hstep]
        unfold AtFixedPoint
        rw [onePass_no_change hp2]
        exact hp2
      · intro m hm
        cases m with
        | zero => omega
        | succ m2 =>
          rw [FEsortLoop, if_neg hp, hstep]

theorem FEsortLoop_of_fixed {conn : List (List Nat)} (h : AtFixedPoint conn) :
    ∀ fuel, FEsortLoop fuel conn = conn := by
  intro fuel
  cases fuel with
  | zero => rfl
  | succ f =>
    unfold AtFixedPoint at h
    rw [FEsortLoop, if_neg (by rw [h]; simp)]
    exact onePass_no_change h

theorem FEsortPolylines_fixed {E F : List (List Nat)}
    (h : FEsortPolylines E = some F) : AtFixedPoint F := by
  cases E with
  | nil => simp [FEsortPolylines] at h
  | cons e rest =>
    have hne : e :: rest ≠ [] := by simp
    obtain ⟨hfix, _⟩ := FEsortLoop_fixed (e :: rest).length (e :: rest) hne le_rfl
    simp only [FEsortPolylines, Option.some.injEq] at h
    rw [← h]
    exact hfix

theorem headV_cons (a : Nat) (l : List Nat) : headV (a :: l) = a := rfl

theorem getLastD_indep : ∀ (l : List Nat), l ≠ [] → ∀ d, l.getLastD d = lastV l := by
  intro l
  induction l with
  | nil => intro h; exact absurd rfl h
  | cons a t ih =>
    intro _ d
    cases t with
    | nil => rfl
    | cons b t2 =>
      have h2 : b :: t2 ≠ [] := by simp
      show (b :: t2).getLastD a = lastV (a :: b :: t2)
      rw [ih h2 a]
      rfl

theorem lastV_cons_of_ne (a : Nat) {l : List Nat} (h : l ≠ []) :
    lastV (a :: l) = lastV l := by
  unfold lastV
  rw [List.getLastD_cons]
  exact getLastD_indep l h a

theorem lastV_concat (l : List Nat) (a : Nat) : lastV (l ++ [a]) = a := by
  induction l with
  | nil => rfl
  | cons b t ih =>
    have h : t ++ [a] ≠ [] := by simp
    show lastV (b :: (t ++ [a])) = a
    rw [lastV_cons_of_ne b h, ih]

theorem cons_headV_tail {l : List Nat} (h : l ≠ []) : headV l :: l.tail = l := by
  cases l with
  | nil => exact absurd rfl h
  | cons a t => rfl

theorem lastV_eq_getLast {l : List Nat} (h : l ≠ []) : lastV l = l.getLast h := by
  cases l with
  | nil => exact absurd rfl h
  | cons a t =>
    show (a :: t).getLastD 0 = _
    rw [List.getLastD_eq_getLast?, List.getLast?_eq_getLast (a :: t) h]
    rfl

theorem dropLast_concat_lastV {l : List Nat} (h : l ≠ []) :
    l.dropLast ++ [lastV l] = l := by
  rw [lastV_eq_getLast h]
  exact List.dropLast_append_getLast h

theorem headV_append_left {l1 : List Nat} (l2 : List Nat) (h : l1 ≠ []) :
    headV (l1 ++ l2) = headV l1 := by
  cases l1 with
  | nil => exact absurd rfl h
  | cons a t => rfl

theorem lastV_append_right (l1 : List Nat) {l2 : List Nat} (h : l2 ≠ []) :
    lastV (l1 ++ l2) = lastV l2 := by
  induction l1 with
  | nil => rfl
  | cons a t ih =>
    have h2 : t ++ l2 ≠ [] := by
      intro habs
      rcases List.append_eq_nil.mp habs with ⟨_, h2⟩
      exact h h2
    show lastV (a :: (t ++ l2)) = lastV l2
    rw [lastV_cons_of_ne a h2, ih]

theorem headV_reverse (l : List Nat) : headV l.reverse = lastV l := by
  induction l with
  | nil => rfl
  | cons a t ih =>
    cases ht : t with
    | nil => rfl
    | cons b t2 =>
      rw [← ht]
      have htne : t ≠ [] := by rw [ht]; simp
      have hrev : t.reverse ≠ [] := by
        intro habs
        exact htne (List.reverse_eq_nil_iff.mp habs)
      rw [List.reverse_cons, headV_append_left [a] hrev, ih, lastV_cons_of_ne a htne]

theorem lastV_reverse (l : List Nat) : lastV l.reverse = headV l := by
  have := headV_reverse l.reverse
  rw [List.reverse_reverse] at this
  exact this.symm

theorem pairsOf_cons_of_ne (x : Nat) {l : List Nat} (h : l ≠ []) :
    pairsOf (x :: l) = (x, headV l) :: pairsOf l := by
  cases l with
  | nil => exact absurd rfl h
  | cons b t => rfl

theorem pairsOf_append {l1 : List Nat} (l2 : List Nat) (h1 : l1 ≠ []) (h2 : l2 ≠ []) :
    pairsOf (l1 ++ l2) = pairsOf l1 ++ (lastV l1, headV l2) :: pairsOf l2 := by
  induction l1 with
  | nil => exact absurd rfl h1
  | cons a t ih =>
    cases ht : t with
    | nil =>
      show pairsOf (a :: l2) = pairsOf [a] ++ (lastV [a], headV l2) :: pairsOf l2
      rw [pairsOf_cons_of_ne a h2]
      rfl
    | cons b t2 =>
      rw [← ht]
      have htne : t ≠ [] := by rw [ht]; simp
      have htl2 : t ++ l2 ≠ [] := by
        intro habs
        rcases List.append_eq_nil.mp habs with ⟨h, _⟩
        exact htne h
      show pairsOf (a :: (t ++ l2)) = pairsOf (a :: t) ++ (lastV (a :: t), headV l2) :: pairsOf l2
      rw [pairsOf_cons_of_ne a htl2, ih htne, pairsOf_cons_of_ne a htne,
        headV_append_left l2 htne, lastV_cons_of_ne a htne]
      rfl

theorem pairsOf_reverse (l : List Nat) :
    pairsOf l.reverse = (pairsOf l).reverse.map Prod.swap := by
  induction l with
  | nil => rfl
  | cons a t ih =>
    cases ht : t with
    | nil => rfl
    | cons b t2 =>
      rw [← ht]
      have htne : t ≠ [] := by rw [ht]; simp
      have hrev : t.reverse ≠ [] := by
        intro habs
        exact htne (List.reverse_eq_nil_iff.mp habs)
      rw [List.reverse_cons, pairsOf_append [a] hrev (by simp), ih,
        pairsOf_cons_of_ne a htne]
      simp [headV, headV_reverse, lastV_reverse, pairsOf]

theorem normPair_swap (p : Nat × Nat) : normPair p.swap = normPair p := by
  rcases p with ⟨a, b⟩
  unfold normPair Prod.swap
  rcases Nat.lt_trichotomy a b with h | h | h
  · rw [if_pos (by omega : a ≤ b), if_neg (by omega : ¬ b ≤ a)]
  · subst h; simp
  · rw [if_neg (by omega : ¬ a ≤ b), if_pos (by omega : b ≤ a)]

theorem msPairs_nil : msPairs [] = 0 := rfl

theorem msPairs_single (a : Nat) : msPairs [a] = 0 := rfl

theorem msPairs_reverse (l : List Nat) : msPairs l.reverse = msPairs l := by
  unfold msPairs
  rw [pairsOf_reverse]
  have : ((pairsOf l).reverse.map Prod.swap).map normPair
      = (pairsOf l).reverse.map normPair := by
    rw [List.map_map]
    exact List.map_congr_left (fun p _ => normPair_swap p)
  rw [this]
  have : ((pairsOf l).reverse.map normPair : List (Nat × Nat))
      = (((pairsOf l).map normPair).reverse : List (Nat × Nat)) := by
    rw [List.map_reverse]
  rw [this]
  exact Multiset.coe_reverse _

theorem msPairs_cons_of_ne (x : Nat) {l : List Nat} (h : l ≠ []) :
    msPairs (x :: l) = normPair (x, headV l) ::ₘ msPairs l := by
  unfold msPairs
  rw [pairsOf_cons_of_ne x h]
  rfl

theorem msPairs_append {l1 : List Nat} (l2 : List Nat) (h1 : l1 ≠ []) (h2 : l2 ≠ []) :
    msPairs (l1 ++ l2) = msPairs l1 + msPairs l2 + {normPair (lastV l1, headV l2)} := by
  unfold msPairs
  rw [pairsOf_append l2 h1 h2]
  simp only [List.map_append, List.map_cons]
  rw [← Multiset.coe_add, ← Multiset.cons_coe, ← Multiset.singleton_add]
  abel

theorem msPairs_dropLast {l : List Nat} (h : 2 ≤ l.length) :
    msPairs l = msPairs l.dropLast + {normPair (lastV l.dropLast, lastV l)} := by
  have hne : l ≠ [] := by
    intro habs; rw [habs] at h; simp at h
  have hdne : l.dropLast ≠ [] := by
    intro habs
    have := List.length_dropLast l
    rw [habs] at this
    simp at this
    omega
  conv_lhs => rw [← dropLast_concat_lastV hne]
  rw [msPairs_append [lastV l] hdne (by simp), msPairs_single]
  simp [headV]

theorem edgeMS_nil : edgeMS [] = 0 := rfl

theorem edgeMS_cons (l : List Nat) (conn : List (List Nat)) :
    edgeMS (l :: conn) = msPairs l + edgeMS conn := by
  simp [edgeMS]

theorem edgeMS_append (A B : List (List Nat)) :
    edgeMS (A ++ B) = edgeMS A + edgeMS B := by
  simp [edgeMS]

theorem msPairs_rule1 {e ne : List Nat} (he : e ≠ []) (hne : ne ≠ [])
    (h : headV e = headV ne) :
    msPairs (e.reverse ++ ne.tail) = msPairs e + msPairs ne := by
  cases htl : ne.tail with
  | nil =>
    have hne1 : ne = [headV ne] := by
      conv_lhs => rw [← cons_headV_tail hne]
      rw [htl]
    rw [List.append_nil, msPairs_reverse]
    conv_rhs => rw [hne1]
    rw [msPairs_single]
    simp
  | cons b t =>
    rw [← htl]
    have htlne : ne.tail ≠ [] := by rw [htl]; simp
    have herev : e.reverse ≠ [] := fun habs => he (List.reverse_eq_nil_iff.mp habs)
    rw [msPairs_append ne.tail herev htlne, msPairs_reverse, lastV_reverse, h]
    conv_rhs => rw [← cons_headV_tail hne]
    rw [msPairs_cons_of_ne (headV ne) htlne, ← Multiset.singleton_add]
    abel

theorem msPairs_rule2 {e ne : List Nat} (he : e ≠ []) (hne : ne ≠ [])
    (h : headV e = lastV ne) :
    msPairs (ne.dropLast ++ e) = msPairs e + msPairs ne := by
  cases hd : ne.dropLast with
  | nil =>
    have hlen : ne.length = 1 := by
      have h1 := List.length_dropLast ne
      rw [hd] at h1
      simp at h1
      have hpos : 0 < ne.length := List.length_pos.mpr hne
      omega
    obtain ⟨x, hx⟩ := List.length_eq_one.mp hlen
    rw [List.nil_append]
    conv_rhs => rw [hx]
    rw [msPairs_single]
    simp
  | cons b t =>
    rw [← hd]
    have hdne : ne.dropLast ≠ [] := by rw [hd]; simp
    have hlen2 : 2 ≤ ne.length := by
      have h1 := List.length_dropLast ne
      have h2 : 0 < ne.dropLast.length := List.length_pos.mpr hdne
      omega
    rw [msPairs_append e hdne he, msPairs_dropLast hlen2, ← h]
    abel

theorem msPairs_rule3 {e ne : List Nat} (he : e ≠ []) (hne : ne ≠ [])
    (h : lastV e = headV ne) :
    msPairs (e ++ ne.tail) = msPairs e + msPairs ne := by
  cases htl : ne.tail with
  | nil =>
    have hne1 : ne = [headV ne] := by
      conv_lhs => rw [← cons_headV_tail hne]
      rw [htl]
    rw [List.append_nil]
    conv_rhs => rw [hne1]
    rw [msPairs_single]
    simp
  | cons b t =>
    rw [← htl]
    have htlne : ne.tail ≠ [] := by rw [htl]; simp
    rw [msPairs_append ne.tail he htlne, h]
    conv_rhs => rw [← cons_headV_tail hne]
    rw [msPairs_cons_of_ne (headV ne) htlne, ← Multiset.singleton_add]
    abel

theorem msPairs_rule4 {e ne : List Nat} (he : e ≠ []) (hne : ne ≠ [])
    (h : lastV e = lastV ne) :
    msPairs (ne.dropLast ++ e.reverse) = msPairs e + msPairs ne := by
  cases hd : ne.dropLast with
  | nil =>
    have hlen : ne.length = 1 := by
      have h1 := List.length_dropLast ne
      rw [hd] at h1
      simp at h1
      have hpos : 0 < ne.length := List.length_pos.mpr hne
      omega
    obtain ⟨x, hx⟩ := List.length_eq_one.mp hlen
    rw [List.nil_append, msPairs_reverse]
    conv_rhs => rw [hx]
    rw [msPairs_single]
    simp
  | cons b t =>
    rw [← hd]
    have hdne : ne.dropLast ≠ [] := by rw [hd]; simp
    have herev : e.reverse ≠ [] := fun habs => he (List.reverse_eq_nil_iff.mp habs)
    have hlen2 : 2 ≤ ne.length := by
      have h1 := List.length_dropLast ne
      have h2 : 0 < ne.dropLast.length := List.length_pos.mpr hdne
      omega
    rw [msPairs_append e.reverse hdne herev, msPairs_reverse, headV_reverse, h,
      msPairs_dropLast hlen2]
    abel

/-- Every element of the working list has at least two vertices (true of
the input bars and preserved by every merge). -/
def TwoLe (conn : List (List Nat)) : Prop := ∀ l ∈ conn, 2 ≤ l.length

theorem twoLe_ne {conn : List (List Nat)} (h : TwoLe conn) :
    ∀ l ∈ conn, l ≠ [] := by
  intro l hl habs
  have := h l hl
  rw [habs] at this
  simp at this

theorem linkStep_twoLe {e : List Nat} : ∀ {conn conn2 : List (List Nat)},
    2 ≤ e.length → TwoLe conn → linkStep e conn = some conn2 → TwoLe conn2 := by
  intro conn
  induction conn with
  | nil => intro conn2 _ _ h; simp [linkStep] at h
  | cons ne rest ih =>
    intro conn2 he hconn h
    have hrest : TwoLe rest := fun l hl => hconn l (by simp [hl])
    rcases linkStep_cases h with ⟨_, rfl⟩ | ⟨_, _, rfl⟩ | ⟨_, _, _, rfl⟩ |
      ⟨_, _, _, _, rfl⟩ | ⟨_, c2, hc2, rfl⟩
    · intro l hl
      rcases List.mem_cons.mp hl with rfl | hl2
      · rw [List.length_append, List.length_reverse]; omega
      · exact hrest l hl2
    · intro l hl
      rcases List.mem_cons.mp hl with rfl | hl2
      · rw [List.length_append]; omega
      · exact hrest l hl2
    · intro l hl
      rcases List.mem_cons.mp hl with rfl | hl2
      · rw [List.length_append]; omega
      · exact hrest l hl2
    · intro l hl
      rcases List.mem_cons.mp hl with rfl | hl2
      · rw [List.length_append, List.length_reverse]; omega
      · exact hrest l hl2
    · intro l hl
      rcases List.mem_cons.mp hl with rfl | hl2
      · exact hconn l (by simp)
      · exact ih he hrest hc2 l hl2

theorem linkStep_edgeMS {e : List Nat} : ∀ {conn conn2 : List (List Nat)},
    e ≠ [] → (∀ l ∈ conn, l ≠ []) → linkStep e conn = some conn2 →
    edgeMS conn2 = msPairs e + edgeMS conn := by
  intro conn
  induction conn with
  | nil => intro conn2 _ _ h; simp [linkStep] at h
  | cons ne rest ih =>
    intro conn2 he hconn h
    have hne : ne ≠ [] := hconn ne (by simp)
    have hrest : ∀ l ∈ rest, l ≠ [] := fun l hl => hconn l (by simp [hl])
    rcases linkStep_cases h with ⟨hc, rfl⟩ | ⟨_, hc, rfl⟩ | ⟨_, _, hc, rfl⟩ |
      ⟨_, _, _, hc, rfl⟩ | ⟨_, c2, hc2, rfl⟩
    · rw [edgeMS_cons, edgeMS_cons, msPairs_rule1 he hne hc]
      abel
    · rw [edgeMS_cons, edgeMS_cons, msPairs_rule2 he hne hc]
      abel
    · rw [edgeMS_cons, edgeMS_cons, msPairs_rule3 he hne hc]
      abel
    · rw [edgeMS_cons, edgeMS_cons, msPairs_rule4 he hne hc]
      abel
    · rw [edgeMS_cons, edgeMS_cons, ih he hrest hc2]
      abel

theorem passAux_twoLe : ∀ (old : List (List Nat)) new c, TwoLe old → TwoLe new →
    TwoLe (passAux old new c).1 := by
  intro old
  induction old with
  | nil => intro new c _ hnew; simpa [passAux] using hnew
  | cons e rest ih =>
    intro new c hold hnew
    have he : 2 ≤ e.length := hold e (by simp)
    have hrest : TwoLe rest := fun l hl => hold l (by simp [hl])
    cases hl : linkStep e new with
    | some new2 =>
      rw [passAux_link_eq hl]
      exact ih new2 true hrest (linkStep_twoLe he hnew hl)
    | none =>
      rw [passAux_nolink_eq hl]
      refine ih (new ++ [e]) c hrest ?_
      intro l hl2
      rcases List.mem_append.mp hl2 with h2 | h2
      · exact hnew l h2
      · rw [List.mem_singleton.mp h2]; exact he

theorem passAux_edgeMS : ∀ (old : List (List Nat)) new c, TwoLe old → TwoLe new →
    edgeMS (passAux old new c).1 = edgeMS old + edgeMS new := by
  intro old
  induction old with
  | nil => intro new c _ _; simp [passAux, edgeMS_nil]
  | cons e rest ih =>
    intro new c hold hnew
    have he : 2 ≤ e.length := hold e (by simp)
    have hene : e ≠ [] := by
      intro habs; rw [habs] at he; simp at he
    have hrest : TwoLe rest := fun l hl => hold l (by simp [hl])
    cases hl : linkStep e new with
    | some new2 =>
      rw [passAux_link_eq hl, ih new2 true hrest (linkStep_twoLe he hnew hl),
        linkStep_edgeMS hene (twoLe_ne hnew) hl, edgeMS_cons]
      abel
    | none =>
      rw [passAux_nolink_eq hl]
      have hnew2 : TwoLe (new ++ [e]) := by
        intro l hl2
        rcases List.mem_append.mp hl2 with h2 | h2
        · exact hnew l h2
        · rw [List.mem_singleton.mp h2]; exact he
      rw [ih (new ++ [e]) c hrest hnew2, edgeMS_append, edgeMS_cons, edgeMS_cons,
        edgeMS_nil]
      abel

theorem onePass_twoLe {conn : List (List Nat)} (h : TwoLe conn) :
    TwoLe (onePass conn).1 := by
  cases conn with
  | nil => intro l hl; simp [onePass] at hl
  | cons first rest =>
    have hrest : TwoLe rest := fun l hl => h l (by simp [hl])
    have hfirst : TwoLe [first] := by
      intro l hl
      rw [List.mem_singleton.mp hl]
      exact h first (by simp)
    exact passAux_twoLe rest [first] false hrest hfirst

theorem onePass_edgeMS {conn : List (List Nat)} (h : TwoLe conn) :
    edgeMS (onePass conn).1 = edgeMS conn := by
  cases conn with
  | nil => rfl
  | cons first rest =>
    have hrest : TwoLe rest := fun l hl => h l (by simp [hl])
    have hfirst : TwoLe [first] := by
      intro l hl
      rw [List.mem_singleton.mp hl]
      exact h first (by simp)
    show edgeMS (passAux rest [first] false).1 = edgeMS (first :: rest)
    rw [passAux_edgeMS rest [first] false hrest hfirst, edgeMS_cons, edgeMS_cons,
      edgeMS_nil]
    abel

theorem FEsortLoop_twoLe : ∀ (fuel : Nat) (conn : List (List Nat)), TwoLe conn →
    TwoLe (FEsortLoop fuel conn) := by
  intro fuel
  induction fuel with
  | zero => intro conn h; exact h
  | succ fuel ih =>
    intro conn h
    rw [FEsortLoop]
    by_cases hp : (onePass conn).2 = true
    · rw [if_pos hp]
      exact ih (onePass conn).1 (onePass_twoLe h)
    · rw [if_neg hp]
      exact onePass_twoLe h

theorem FEsortLoop_edgeMS : ∀ (fuel : Nat) (conn : List (List Nat)), TwoLe conn →
    edgeMS (FEsortLoop fuel conn) = edgeMS conn := by
  intro fuel
  induction fuel with
  | zero => intro conn _; rfl
  | succ fuel ih =>
    intro conn h
    rw [FEsortLoop]
    by_cases hp : (onePass conn).2 = true
    · rw [if_pos hp, ih (onePass conn).1 (onePass_twoLe h), onePass_edgeMS h]
    · rw [if_neg hp]
      exact onePass_edgeMS h

theorem FEsortPolylines_twoLe {E F : List (List Nat)} (hE : TwoLe E)
    (h : FEsortPolylines E = some F) : TwoLe F := by
  cases E with
  | nil => simp [FEsortPolylines] at h
  | cons e rest =>
    simp only [FEsortPolylines, Option.some.injEq] at h
    rw [← h]
    exact FEsortLoop_twoLe _ _ hE

theorem FEsortPolylines_edgeMS {E F : List (List Nat)} (hE : TwoLe E)
    (h : FEsortPolylines E = some F) : edgeMS F = edgeMS E := by
  cases E with
  | nil => simp [FEsortPolylines] at h
  | cons e rest =>
    simp only [FEsortPolylines, Option.some.injEq] at h
    rw [← h]
    exact FEsortLoop_edgeMS _ _ hE

theorem atFixedPoint_no_match {conn : List (List Nat)} (h : AtFixedPoint conn)
    {i j : Nat} (hi : i < conn.length) (hj : j < conn.length) (hij : i < j) :
    ¬ matchP conn[j] conn[i] := by
  cases conn with
  | nil => simp at hj
  | cons first rest =>
    have hflag : (passAux rest [first] false).2 = false := h
    have hjlen : j < rest.length + 1 := by simpa using hj
    have hj1 : j - 1 < rest.length := by omega
    have hsplit : rest = rest.take (j - 1) ++ rest[j - 1] :: rest.drop j := by
      have hdrop : rest.drop (j - 1) = rest[j - 1] :: rest.drop j := by
        have := List.drop_eq_getElem_cons hj1
        have hjj : j - 1 + 1 = j := by omega
        rw [hjj] at this
        exact this
      conv_lhs => rw [← List.take_append_drop (j - 1) rest]
      rw [hdrop]
    have hnone := passAux_no_change_links hflag (rest.take (j - 1)) (rest[j - 1])
      (rest.drop j) hsplit
    have hforall := (linkStep_eq_none_iff _ _).mp hnone
    have hgetj : (first :: rest)[j] = rest[j - 1] := by
      cases j with
      | zero => omega
      | succ j2 => simp
    have hmem : (first :: rest)[i] ∈ [first] ++ rest.take (j - 1) := by
      cases i with
      | zero => simp
      | succ i2 =>
        have hi2 : i2 < j - 1 := by omega
        have hi2r : i2 < rest.length := by
          simp at hi
          omega
        have hg : (first :: rest)[i2 + 1] = rest[i2] := by simp
        rw [hg]
        have hlen : i2 < (rest.take (j - 1)).length := by
          rw [List.length_take]
          omega
        have hgt : (rest.take (j - 1))[i2] = rest[i2] := List.getElem_take rest
        rw [← hgt]
        exact List.mem_append.mpr (Or.inr (List.getElem_mem hlen))
    intro hmatch
    rw [hgetj] at hmatch
    exact hforall _ hmem hmatch

/-- Number of endpoints of the pair `p` equal to `w` (0, 1 or 2). -/
def pIncid (w : Nat) (p : Nat × Nat) : Nat :=
  (if p.1 = w then 1 else 0) + (if p.2 = w then 1 else 0)

/-- Incidences of `w` in a list of pairs. -/
def incidL (w : Nat) (ps : List (Nat × Nat)) : Nat := (ps.map (pIncid w)).sum

/-- Incidences of `w` in a multiset of pairs. -/
def incidM (w : Nat) (m : Multiset (Nat × Nat)) : Nat := (m.map (pIncid w)).sum

/-- Number of polyline ends (head, last) of `l` equal to `w`. -/
def endInd (w : Nat) (l : List Nat) : Nat :=
  (if headV l = w then 1 else 0) + (if lastV l = w then 1 else 0)

theorem pIncid_normPair (w : Nat) (p : Nat × Nat) : pIncid w (normPair p) = pIncid w p := by
  rcases p with ⟨a, b⟩
  unfold normPair pIncid
  by_cases h : a ≤ b
  · rw [if_pos h]
  · rw [if_neg h]
    simp only
    omega

theorem incidM_coe (w : Nat) (ps : List (Nat × Nat)) : incidM w (↑ps) = incidL w ps := rfl

theorem incidM_add (w : Nat) (A B : Multiset (Nat × Nat)) :
    incidM w (A + B) = incidM w A + incidM w B := by
  unfold incidM
  rw [Multiset.map_add, Multiset.sum_add]

theorem incidM_msPairs (w : Nat) (l : List Nat) :
    incidM w (msPairs l) = incidL w (pairsOf l) := by
  unfold msPairs
  rw [incidM_coe]
  unfold incidL
  rw [List.map_map]
  congr 1
  exact List.map_congr_left (fun p _ => pIncid_normPair w p)

theorem incidL_cons (w : Nat) (p : Nat × Nat) (ps : List (Nat × Nat)) :
    incidL w (p :: ps) = pIncid w p + incidL w ps := by
  unfold incidL
  simp

theorem incid_formula (w : Nat) : ∀ l : List Nat, l ≠ [] →
    incidL w (pairsOf l) + endInd w l = 2 * l.count w := by
  intro l
  induction l with
  | nil => intro h; exact absurd rfl h
  | cons a t ih =>
    intro _
    cases t with
    | nil =>
      unfold incidL endInd pairsOf
      simp [headV, lastV, List.count_cons]
      by_cases ha : a = w <;> simp [ha]
    | cons b t2 =>
      have htne : (b :: t2) ≠ [] := by simp
      have hIH := ih htne
      have hpairs : pairsOf (a :: b :: t2) = (a, b) :: pairsOf (b :: t2) := rfl
      rw [hpairs, incidL_cons]
      unfold endInd
      rw [lastV_cons_of_ne a htne]
      unfold endInd at hIH
      unfold pIncid
      simp only [headV_cons, List.count_cons] at hIH ⊢
      by_cases ha : a = w <;> by_cases hb : b = w <;>
        by_cases hl : lastV (b :: t2) = w <;>
        simp [ha, hb, hl] at hIH ⊢ <;> omega

theorem incid_pos_of_mem {w : Nat} : ∀ {l : List Nat}, w ∈ l → 2 ≤ l.length →
    1 ≤ incidL w (pairsOf l) := by
  intro l
  induction l with
  | nil => intro hw _; simp at hw
  | cons a t ih =>
    intro hw hlen
    cases t with
    | nil => simp at hlen
    | cons b t2 =>
      have hpairs : pairsOf (a :: b :: t2) = (a, b) :: pairsOf (b :: t2) := rfl
      rw [hpairs, incidL_cons]
      rcases List.mem_cons.mp hw with rfl | hw2
      · have : 1 ≤ pIncid w (w, b) := by simp [pIncid]
        omega
      · cases t2 with
        | nil =>
          have hwb : w = b := by simpa using hw2
          subst hwb
          have : 1 ≤ pIncid w (a, w) := by simp [pIncid]
          omega
        | cons c t3 =>
          have := ih hw2 (by simp)
          omega

theorem endpoint_of_incid_le_one {l : List Nat} {w : Nat} (hw : w ∈ l)
    (hlen : 2 ≤ l.length) (hinc : incidL w (pairsOf l) ≤ 1) :
    headV l = w ∨ lastV l = w := by
  have hne : l ≠ [] := by
    intro habs; rw [habs] at hlen; simp at hlen
  have hform := incid_formula w l hne
  have hcount : 1 ≤ l.count w := List.count_pos_iff.mpr hw
  unfold endInd at hform
  by_cases h1 : headV l = w
  · exact Or.inl h1
  · by_cases h2 : lastV l = w
    · exact Or.inr h2
    · rw [if_neg h1, if_neg h2] at hform
      omega

theorem incid_mem_le {F : List (List Nat)} {l : List Nat} (hl : l ∈ F) (w : Nat) :
    incidL w (pairsOf l) ≤ incidM w (edgeMS F) := by
  obtain ⟨A, B, rfl⟩ := List.append_of_mem hl
  rw [edgeMS_append, edgeMS_cons, incidM_add, incidM_add, incidM_msPairs]
  omega

theorem incid_two_le {F : List (List Nat)} {i j : Nat} (hi : i < F.length)
    (hj : j < F.length) (hij : i < j) (w : Nat) :
    incidL w (pairsOf F[i]) + incidL w (pairsOf F[j]) ≤ incidM w (edgeMS F) := by
  have h1 : F[i] ∈ F.take (i + 1) := by
    have hlen : i < (F.take (i + 1)).length := by
      rw [List.length_take]
      omega
    have hgt : (F.take (i + 1))[i] = F[i] := List.getElem_take F
    rw [← hgt]
    exact List.getElem_mem hlen
  have h2 : F[j] ∈ F.drop (i + 1) := by
    have hlen : j - (i + 1) < (F.drop (i + 1)).length := by
      rw [List.length_drop]
      omega
    have hgt : (F.drop (i + 1))[j - (i + 1)] = F[j] := by
      rw [List.getElem_drop]
      congr 1
      omega
    rw [← hgt]
    exact List.getElem_mem hlen
  have hle1 := incid_mem_le h1 w
  have hle2 := incid_mem_le h2 w
  have hsum : incidM w (edgeMS (F.take (i + 1))) + incidM w (edgeMS (F.drop (i + 1)))
      = incidM w (edgeMS F) := by
    rw [← incidM_add, ← edgeMS_append, List.take_append_drop]
  omega

theorem incidM_degCount {E : List (List Nat)} (hbar : ∀ e ∈ E, isBar e) (w : Nat) :
    incidM w (edgeMS E) = degCount w E := by
  induction E with
  | nil => rfl
  | cons e rest ih =>
    have hbar2 : ∀ x ∈ rest, isBar x := fun x hx => hbar x (by simp [hx])
    obtain ⟨a, b, rfl⟩ := isBar_iff.mp (hbar e (by simp))
    rw [edgeMS_cons, incidM_add, ih hbar2, incidM_msPairs]
    unfold degCount
    simp only [List.map_cons, List.sum_cons]
    unfold degCount at *
    have hpairs : pairsOf [a, b] = [(a, b)] := rfl
    rw [hpairs]
    unfold incidL pIncid
    simp [List.count_cons]
    by_cases ha : a = w <;> by_cases hb : b = w <;> simp [ha, hb]

/-- `u` and `v` are joined by one bar of the input edge list. -/
def AdjE (E : List (List Nat)) (u v : Nat) : Prop :=
  ∃ e ∈ E, (headV e = u ∧ lastV e = v) ∨ (headV e = v ∧ lastV e = u)

/-- `u` and `v` are connected by a path in the graph formed by the input
edges. -/
def ConnectedE (E : List (List Nat)) (u v : Nat) : Prop :=
  Relation.ReflTransGen (AdjE E) u v

/-- `u` and `v` occur in one common polyline of the output. -/
def SamePolyline (F : List (List Nat)) (u v : Nat) : Prop :=
  ∃ l ∈ F, u ∈ l ∧ v ∈ l

theorem adjE_symm {E : List (List Nat)} {u v : Nat} (h : AdjE E u v) : AdjE E v u := by
  obtain ⟨e, he, hor⟩ := h
  exact ⟨e, he, hor.symm⟩

theorem connectedE_symm {E : List (List Nat)} {u v : Nat} (h : ConnectedE E u v) :
    ConnectedE E v u := by
  unfold ConnectedE at h ⊢
  induction h with
  | refl => exact Relation.ReflTransGen.refl
  | tail hab hbc ih =>
    exact Relation.ReflTransGen.trans (Relation.ReflTransGen.single (adjE_symm hbc)) ih

theorem normPair_eq_cases {p q : Nat × Nat} (h : normPair p = normPair q) :
    p = q ∨ p = q.swap := by
  rcases p with ⟨a, b⟩
  rcases q with ⟨c, d⟩
  unfold normPair at h
  by_cases h1 : a ≤ b <;> by_cases h2 : c ≤ d
  · rw [if_pos h1, if_pos h2] at h
    exact Or.inl h
  · rw [if_pos h1, if_neg h2] at h
    right
    rw [Prod.swap_prod_mk]
    exact h
  · rw [if_neg h1, if_pos h2] at h
    right
    rw [Prod.swap_prod_mk]
    have hbc : b = c := congrArg Prod.fst h
    have had : a = d := congrArg Prod.snd h
    rw [hbc, had]
  · rw [if_neg h1, if_neg h2] at h
    left
    have hbd : b = d := congrArg Prod.fst h
    have hac : a = c := congrArg Prod.snd h
    rw [hbd, hac]

theorem mem_edgeMS {p : Nat × Nat} : ∀ {F : List (List Nat)},
    p ∈ edgeMS F ↔ ∃ l ∈ F, p ∈ msPairs l := by
  intro F
  induction F with
  | nil => simp [edgeMS_nil]
  | cons l rest ih =>
    rw [edgeMS_cons]
    constructor
    · intro h
      rcases Multiset.mem_add.mp h with h2 | h2
      · exact ⟨l, by simp, h2⟩
      · obtain ⟨l2, hl2, hp⟩ := ih.mp h2
        exact ⟨l2, by simp [hl2], hp⟩
    · intro ⟨l2, hl2, hp⟩
      rcases List.mem_cons.mp hl2 with rfl | hl3
      · exact Multiset.mem_add.mpr (Or.inl hp)
      · exact Multiset.mem_add.mpr (Or.inr (ih.mpr ⟨l2, hl3, hp⟩))

theorem mem_msPairs {p : Nat × Nat} {l : List Nat} :
    p ∈ msPairs l ↔ ∃ q ∈ pairsOf l, normPair q = p := by
  unfold msPairs
  rw [Multiset.mem_coe]
  exact List.mem_map

theorem pair_comps_mem {q : Nat × Nat} {l : List Nat} (h : q ∈ pairsOf l) :
    q.1 ∈ l ∧ q.2 ∈ l := by
  unfold pairsOf at h
  rcases q with ⟨a, b⟩
  have := List.of_mem_zip h
  exact ⟨this.1, List.mem_of_mem_tail this.2⟩

theorem pair_in_some_poly {F : List (List Nat)} {p : Nat × Nat}
    (hp : normPair p ∈ edgeMS F) : ∃ l ∈ F, p.1 ∈ l ∧ p.2 ∈ l := by
  obtain ⟨l, hl, hpl⟩ := mem_edgeMS.mp hp
  obtain ⟨q, hq, hnq⟩ := mem_msPairs.mp hpl
  have hcomp := pair_comps_mem hq
  refine ⟨l, hl, ?_⟩
  rcases normPair_eq_cases hnq.symm with h | h
  · rw [h]
    exact hcomp
  · rw [show p.1 = q.2 from congrArg Prod.fst h, show p.2 = q.1 from congrArg Prod.snd h]
    exact ⟨hcomp.2, hcomp.1⟩

theorem poly_pair_adj {E F : List (List Nat)} (hbar : ∀ e ∈ E, isBar e)
    (hcons : edgeMS F = edgeMS E) {l : List Nat} (hl : l ∈ F) {q : Nat × Nat}
    (hq : q ∈ pairsOf l) : AdjE E q.1 q.2 := by
  have hmem : normPair q ∈ edgeMS E := by
    rw [← hcons]
    exact mem_edgeMS.mpr ⟨l, hl, mem_msPairs.mpr ⟨q, hq, rfl⟩⟩
  obtain ⟨e, he, hpe⟩ := mem_edgeMS.mp hmem
  obtain ⟨a, b, rfl⟩ := isBar_iff.mp (hbar e he)
  have hpairs : pairsOf [a, b] = [(a, b)] := rfl
  obtain ⟨q2, hq2, hnq2⟩ := mem_msPairs.mp hpe
  rw [hpairs] at hq2
  have hq2ab : q2 = (a, b) := by simpa using hq2
  subst hq2ab
  rcases normPair_eq_cases hnq2 with h | h
  · have ha : q.1 = a := (congrArg Prod.fst h).symm
    have hb : q.2 = b := (congrArg Prod.snd h).symm
    exact ⟨[a, b], he, Or.inl ⟨by rw [ha]; rfl, by rw [hb]; rfl⟩⟩
  · have ha : q.2 = a := (congrArg Prod.fst h).symm
    have hb : q.1 = b := (congrArg Prod.snd h).symm
    exact ⟨[a, b], he, Or.inr ⟨by rw [ha]; rfl, by rw [hb]; rfl⟩⟩

theorem head_connected {E : List (List Nat)} : ∀ {l : List Nat},
    (∀ q ∈ pairsOf l, AdjE E q.1 q.2) → ∀ u ∈ l, ConnectedE E (headV l) u := by
  intro l
  induction l with
  | nil => intro _ u hu; simp at hu
  | cons a t ih =>
    intro hadj u hu
    cases t with
    | nil =>
      have : u = a := by simpa using hu
      subst this
      exact Relation.ReflTransGen.refl
    | cons b t2 =>
      rcases List.mem_cons.mp hu with rfl | hu2
      · exact Relation.ReflTransGen.refl
      · have hAB : AdjE E a b := by
          have : (a, b) ∈ pairsOf (a :: b :: t2) := by
            rw [show pairsOf (a :: b :: t2) = (a, b) :: pairsOf (b :: t2) from rfl]
            simp
          exact hadj (a, b) this
        have hadj2 : ∀ q ∈ pairsOf (b :: t2), AdjE E q.1 q.2 := by
          intro q hq
          apply hadj
          rw [show pairsOf (a :: b :: t2) = (a, b) :: pairsOf (b :: t2) from rfl]
          simp [hq]
        have := ih hadj2 u hu2
        exact Relation.ReflTransGen.trans (Relation.ReflTransGen.single hAB) this

theorem chain_connected {E : List (List Nat)} {l : List Nat}
    (hadj : ∀ q ∈ pairsOf l, AdjE E q.1 q.2) {u v : Nat} (hu : u ∈ l) (hv : v ∈ l) :
    ConnectedE E u v :=
  Relation.ReflTransGen.trans (connectedE_symm (head_connected hadj u hu))
    (head_connected hadj v hv)

theorem poly_unique_lt {F : List (List Nat)} (hTwo : TwoLe F)
    (hfix : AtFixedPoint F)
    (hbound : ∀ w, incidM w (edgeMS F) ≤ 2)
    {i j : Nat} (hi : i < F.length) (hj : j < F.length) (hij : i < j) {w : Nat}
    (hwi : w ∈ F[i]) (hwj : w ∈ F[j]) : False := by
  have h2i : 2 ≤ F[i].length := hTwo _ (List.getElem_mem hi)
  have h2j : 2 ≤ F[j].length := hTwo _ (List.getElem_mem hj)
  have p1 : 1 ≤ incidL w (pairsOf F[i]) := incid_pos_of_mem hwi h2i
  have p2 : 1 ≤ incidL w (pairsOf F[j]) := incid_pos_of_mem hwj h2j
  have hsum := incid_two_le hi hj hij w
  have hb := hbound w
  have e1 : incidL w (pairsOf F[i]) ≤ 1 := by omega
  have e2 : incidL w (pairsOf F[j]) ≤ 1 := by omega
  have hepi := endpoint_of_incid_le_one hwi h2i e1
  have hepj := endpoint_of_incid_le_one hwj h2j e2
  apply atFixedPoint_no_match hfix hi hj hij
  unfold matchP
  rcases hepj with h | h <;> rcases hepi with h2 | h2
  · exact Or.inl (h.trans h2.symm)
  · exact Or.inr (Or.inl (h.trans h2.symm))
  · exact Or.inr (Or.inr (Or.inl (h.trans h2.symm)))
  · exact Or.inr (Or.inr (Or.inr (h.trans h2.symm)))

theorem poly_unique {F : List (List Nat)} (hTwo : TwoLe F)
    (hfix : AtFixedPoint F)
    (hbound : ∀ w, incidM w (edgeMS F) ≤ 2)
    {i j : Nat} (hi : i < F.length) (hj : j < F.length) {w : Nat}
    (hwi : w ∈ F[i]) (hwj : w ∈ F[j]) : i = j := by
  rcases Nat.lt_trichotomy i j with h | h | h
  · exact absurd (poly_unique_lt hTwo hfix hbound hi hj h hwi hwj) (by simp)
  · exact h
  · exact absurd (poly_unique_lt hTwo hfix hbound hj hi h hwj hwi) (by simp)

theorem degLE2_of_forall_mem {E : List (List Nat)}
    (h : ∀ w ∈ E.flatten, degCount w E ≤ 2) : DegLE2 E := by
  intro w
  by_cases hw : w ∈ E.flatten
  · exact h w hw
  · have hz : degCount w E = 0 := by
      unfold degCount
      apply List.sum_eq_zero
      intro x hx
      obtain ⟨e, he, rfl⟩ := List.mem_map.mp hx
      apply List.count_eq_zero.mpr
      intro habs
      exact hw (List.mem_flatten.mpr ⟨e, he, habs⟩)
    omega

theorem twoLe_of_bars {E : List (List Nat)} (hbar : ∀ e ∈ E, isBar e) : TwoLe E := by
  intro e he
  rw [hbar e he]

theorem connected_same_poly {E F : List (List Nat)} (hbar : ∀ e ∈ E, isBar e)
    (hdeg : DegLE2 E) (hF : FEsortPolylines E = some F) {u v : Nat}
    (hu : u ∈ E.flatten) (hconn : ConnectedE E u v) : SamePolyline F u v := by
  have hTwoE : TwoLe E := twoLe_of_bars hbar
  have hTwoF : TwoLe F := FEsortPolylines_twoLe hTwoE hF
  have hcons : edgeMS F = edgeMS E := FEsortPolylines_edgeMS hTwoE hF
  have hfix : AtFixedPoint F := FEsortPolylines_fixed hF
  have hbound : ∀ w, incidM w (edgeMS F) ≤ 2 := by
    intro w
    rw [hcons, incidM_degCount hbar]
    exact hdeg w
  have hedge_poly : ∀ a b : Nat, [a, b] ∈ E → ∃ l ∈ F, a ∈ l ∧ b ∈ l := by
    intro a b he
    have hmemF : normPair (a, b) ∈ edgeMS F := by
      rw [hcons]
      refine mem_edgeMS.mpr ⟨[a, b], he, mem_msPairs.mpr ⟨(a, b), ?_, rfl⟩⟩
      rw [show pairsOf [a, b] = [(a, b)] from rfl]
      simp
    exact pair_in_some_poly hmemF
  induction hconn with
  | refl =>
    obtain ⟨e, he, hue⟩ := List.mem_flatten.mp hu
    obtain ⟨a, b, rfl⟩ := isBar_iff.mp (hbar e he)
    obtain ⟨l, hl, hal, hbl⟩ := hedge_poly a b he
    have hul : u ∈ l := by
      rcases (by simpa using hue : u = a ∨ u = b) with rfl | rfl
      · exact hal
      · exact hbl
    exact ⟨l, hl, hul, hul⟩
  | tail hxy hadj ih =>
    obtain ⟨l, hl, hul, hxl⟩ := ih
    obtain ⟨e, he, hor⟩ := hadj
    obtain ⟨a, b, rfl⟩ := isBar_iff.mp (hbar e he)
    obtain ⟨l2, hl2, hal2, hbl2⟩ := hedge_poly a b he
    have hav : headV [a, b] = a := rfl
    have hbv : lastV [a, b] = b := rfl
    rw [hav, hbv] at hor
    obtain ⟨i, hi, hFi⟩ := List.mem_iff_getElem.mp hl
    obtain ⟨j, hj, hFj⟩ := List.mem_iff_getElem.mp hl2
    rename_i x y
    have hxl2 : x ∈ l2 := by
      rcases hor with ⟨rfl, rfl⟩ | ⟨rfl, rfl⟩
      · exact hal2
      · exact hbl2
    have hij : i = j := poly_unique hTwoF hfix hbound hi hj
      (by rw [hFi]; exact hxl) (by rw [hFj]; exact hxl2)
    have hll : l = l2 := by
      subst hij
      exact hFi.symm.trans hFj
    have hyl : y ∈ l := by
      rw [hll]
      rcases hor with ⟨rfl, rfl⟩ | ⟨rfl, rfl⟩
      · exact hbl2
      · exact hal2
    exact ⟨l, hl, hul, hyl⟩

theorem incidL_append (w : Nat) (ps1 ps2 : List (Nat × Nat)) :
    incidL w (ps1 ++ ps2) = incidL w ps1 + incidL w ps2 := by
  unfold incidL
  rw [List.map_append, List.sum_append]

theorem incidL_split (w : Nat) (ps : List (Nat × Nat)) {t : Nat} (ht : t < ps.length) :
    incidL w ps = incidL w (ps.take t) + pIncid w ps[t] + incidL w (ps.drop (t + 1)) := by
  conv_lhs => rw [← List.take_append_drop t ps]
  rw [incidL_append, List.drop_eq_getElem_cons ht, incidL_cons]
  omega

theorem incidL_one_le (w : Nat) (ps : List (Nat × Nat)) {t : Nat} (ht : t < ps.length) :
    pIncid w ps[t] ≤ incidL w ps := by
  rw [incidL_split w ps ht]
  omega

theorem incidL_two_pos_le (w : Nat) (ps : List (Nat × Nat)) {t1 t2 : Nat}
    (h12 : t1 < t2) (h2 : t2 < ps.length) :
    pIncid w ps[t1] + pIncid w ps[t2] ≤ incidL w ps := by
  have ht1 : t1 < (ps.take t2).length := by
    rw [List.length_take]
    omega
  have hget : (ps.take t2)[t1] = ps[t1] := List.getElem_take ps
  have h1 := incidL_one_le w (ps.take t2) ht1
  rw [hget] at h1
  rw [incidL_split w ps h2]
  omega

theorem incidL_three_pos_le (w : Nat) (ps : List (Nat × Nat)) {t1 t2 t3 : Nat}
    (h12 : t1 < t2) (h23 : t2 < t3) (h3 : t3 < ps.length) :
    pIncid w ps[t1] + pIncid w ps[t2] + pIncid w ps[t3] ≤ incidL w ps := by
  have ht1 : t1 < (ps.take t3).length := by
    rw [List.length_take]
    omega
  have ht2 : t2 < (ps.take t3).length := by
    rw [List.length_take]
    omega
  have hg1 : (ps.take t3)[t1] = ps[t1] := List.getElem_take ps
  have hg2 : (ps.take t3)[t2] = ps[t2] := List.getElem_take ps
  have h1 := incidL_two_pos_le w (ps.take t3) h12 ht2
  rw [hg1, hg2] at h1
  rw [incidL_split w ps h3]
  omega

theorem pairsOf_length (l : List Nat) : (pairsOf l).length = l.length - 1 := by
  unfold pairsOf
  rw [List.length_zip, List.length_tail]
  omega

theorem pairsOf_getElem (l : List Nat) (t : Nat) (ht : t < (pairsOf l).length)
    (h1 : t < l.length) (h2 : t + 1 < l.length) :
    (pairsOf l)[t] = (l[t], l[t + 1]) := by
  unfold pairsOf at ht ⊢
  rw [List.getElem_zip]
  have htail : t < l.tail.length := by
    rw [List.length_tail]
    omega
  congr 1
  rw [List.getElem_tail]

theorem pIncid_fst (w b : Nat) : 1 ≤ pIncid w (w, b) := by
  unfold pIncid
  simp

theorem pIncid_snd (w a : Nat) : 1 ≤ pIncid w (a, w) := by
  unfold pIncid
  simp

theorem pIncid_both (w : Nat) : pIncid w (w, w) = 2 := by
  unfold pIncid
  simp

theorem no_interior_dup {l : List Nat} {w : Nat}
    (hb : incidL w (pairsOf l) ≤ 2)
    {i j : Nat} (hi : i < l.length) (hj : j < l.length) (hij : i < j)
    (hwi : l[i] = w) (hwj : l[j] = w) : i = 0 ∧ j = l.length - 1 := by
  have hpslen := pairsOf_length l
  have hi0 : i = 0 := by
    by_contra h0
    obtain ⟨k, rfl⟩ : ∃ k, i = k + 1 := ⟨i - 1, by omega⟩
    have hpk : k < (pairsOf l).length := by omega
    have hpk1 : k + 1 < (pairsOf l).length := by omega
    have hgk : (pairsOf l)[k] = (l[k], l[k + 1]) :=
      pairsOf_getElem l k hpk (by omega) (by omega)
    have hgk1 : (pairsOf l)[k + 1] = (l[k + 1], l[k + 1 + 1]) :=
      pairsOf_getElem l (k + 1) hpk1 (by omega) (by omega)
    have hinc1 : 1 ≤ pIncid w ((pairsOf l)[k]) := by
      rw [hgk, hwi]
      exact pIncid_snd w _
    by_cases hji : j = k + 2
    · have hpair : (pairsOf l)[k + 1] = (w, w) := by
        rw [hgk1, hwi]
        subst hji
        rw [hwj]
      have hinc2 : pIncid w ((pairsOf l)[k + 1]) = 2 := by
        rw [hpair]
        exact pIncid_both w
      have := incidL_two_pos_le w (pairsOf l) (show k < k + 1 by omega) hpk1
      omega
    · obtain ⟨r, rfl⟩ : ∃ r, j = r + 1 := ⟨j - 1, by omega⟩
      have hkr : k + 1 < r := by omega
      have hpr : r < (pairsOf l).length := by omega
      have hgr : (pairsOf l)[r] = (l[r], l[r + 1]) :=
        pairsOf_getElem l r hpr (by omega) (by omega)
      have hinc2 : 1 ≤ pIncid w ((pairsOf l)[k + 1]) := by
        rw [hgk1, hwi]
        exact pIncid_fst w _
      have hinc3 : 1 ≤ pIncid w ((pairsOf l)[r]) := by
        rw [hgr, hwj]
        exact pIncid_snd w _
      have := incidL_three_pos_le w (pairsOf l)
        (show k < k + 1 by omega) hkr hpr
      omega
  subst hi0
  refine ⟨rfl, ?_⟩
  by_contra hjm
  have hjlt : j < l.length - 1 := by omega
  obtain ⟨r, rfl⟩ : ∃ r, j = r + 1 := ⟨j - 1, by omega⟩
  have hp0 : 0 < (pairsOf l).length := by omega
  have hpr : r < (pairsOf l).length := by omega
  have hpr1 : r + 1 < (pairsOf l).length := by omega
  have hg0 : (pairsOf l)[0] = (l[0], l[0 + 1]) :=
    pairsOf_getElem l 0 hp0 (by omega) (by omega)
  have hgr : (pairsOf l)[r] = (l[r], l[r + 1]) :=
    pairsOf_getElem l r hpr (by omega) (by omega)
  have hgr1 : (pairsOf l)[r + 1] = (l[r + 1], l[r + 1 + 1]) :=
    pairsOf_getElem l (r + 1) hpr1 (by omega) (by omega)
  by_cases hr0 : r = 0
  · subst hr0
    have hpair : (pairsOf l)[0] = (w, w) := by
      rw [hg0, hwi, hwj]
    have hinc2 : pIncid w ((pairsOf l)[0]) = 2 := by
      rw [hpair]
      exact pIncid_both w
    have hinc1 : 1 ≤ pIncid w ((pairsOf l)[0 + 1]) := by
      rw [hgr1, hwj]
      exact pIncid_fst w _
    have := incidL_two_pos_le w (pairsOf l) (show 0 < 0 + 1 by omega) hpr1
    omega
  · have hinc1 : 1 ≤ pIncid w ((pairsOf l)[0]) := by
      rw [hg0, hwi]
      exact pIncid_fst w _
    have hinc2 : 1 ≤ pIncid w ((pairsOf l)[r]) := by
      rw [hgr, hwj]
      exact pIncid_snd w _
    have hinc3 : 1 ≤ pIncid w ((pairsOf l)[r + 1]) := by
      rw [hgr1, hwj]
      exact pIncid_fst w _
    have := incidL_three_pos_le w (pairsOf l)
      (show 0 < r by omega) (show r < r + 1 by omega) hpr1
    omega

theorem headV_mem {l : List Nat} (h : l ≠ []) : headV l ∈ l := by
  cases l with
  | nil => exact absurd rfl h
  | cons a t => exact List.mem_cons_self a t

theorem lastV_mem {l : List Nat} (h : l ≠ []) : lastV l ∈ l := by
  rw [lastV_eq_getLast h]
  exact List.getLast_mem h

theorem headV_eq_getElem {l : List Nat} (h : 0 < l.length) : headV l = l[0] := by
  cases l with
  | nil => simp at h
  | cons a t => rfl

theorem headV_take {l : List Nat} {s : Nat} (hs : 1 ≤ s) (h : 0 < l.length) :
    headV (l.take s) = headV l := by
  cases l with
  | nil => simp at h
  | cons a t =>
    obtain ⟨s2, rfl⟩ : ∃ s2, s = s2 + 1 := ⟨s - 1, by omega⟩
    rfl

theorem take_extend {l : List Nat} {k : Nat} (hk : k < l.length) :
    l.take k ++ [l[k]] = l.take (k + 1) := by
  rw [List.take_succ]
  congr 1
  rw [List.getElem?_eq_getElem hk]
  rfl

theorem lastV_take {l : List Nat} {k : Nat} (hk : k < l.length) :
    lastV (l.take (k + 1)) = l[k] := by
  rw [← take_extend hk, lastV_concat]

theorem dropLast_take {l : List Nat} {k : Nat} (hk : k < l.length) :
    (l.take (k + 1)).dropLast = l.take k := by
  rw [← take_extend hk, List.dropLast_concat]

theorem take_two {l : List Nat} (h : 1 < l.length) :
    l.take 2 = [l[0], l[1]] := by
  rw [← take_extend h, ← take_extend (show 0 < l.length by omega)]
  rfl

theorem take_extend_two {l : List Nat} {k : Nat} (hk : k + 1 < l.length) :
    l.take k ++ [l[k], l[k + 1]] = l.take (k + 2) := by
  rw [← take_extend hk, ← take_extend (show k < l.length by omega),
    List.append_assoc]
  rfl

theorem linkStep_none_of_disjoint {e : List Nat} {A : List (List Nat)}
    (he : e ≠ []) (hAne : ∀ x ∈ A, x ≠ [])
    (hdisj : ∀ x ∈ A, ∀ w, w ∈ x → w ∉ e) :
    linkStep e A = none := by
  rw [linkStep_eq_none_iff]
  intro x hx hm
  have hxne := hAne x hx
  rcases hm with h | h | h | h
  · have hin : headV x ∈ e := by
      rw [← h]
      exact headV_mem he
    exact hdisj x hx _ (headV_mem hxne) hin
  · have hin : lastV x ∈ e := by
      rw [← h]
      exact headV_mem he
    exact hdisj x hx _ (lastV_mem hxne) hin
  · have hin : headV x ∈ e := by
      rw [← h]
      exact lastV_mem he
    exact hdisj x hx _ (headV_mem hxne) hin
  · have hin : lastV x ∈ e := by
      rw [← h]
      exact lastV_mem he
    exact hdisj x hx _ (lastV_mem hxne) hin

theorem linkStep_append_of_none {e : List Nat} {A : List (List Nat)}
    (h : ∀ x ∈ A, ¬ matchP e x) (B : List (List Nat)) :
    linkStep e (A ++ B) = (linkStep e B).map (fun conn => A ++ conn) := by
  induction A with
  | nil =>
    cases hB : linkStep e B <;> simp [hB]
  | cons x A2 ih =>
    rw [List.cons_append, linkStep_skip _ (h x (by simp)),
      ih (fun y hy => h y (by simp [hy]))]
    cases hB : linkStep e B <;> simp [hB]

theorem linkStep_rebuild_step {l : List Nat} {k : Nat}
    (hk1 : 1 ≤ k) (hk : k + 1 < l.length)
    (hb : ∀ w, incidL w (pairsOf l) ≤ 2)
    {A : List (List Nat)} (hAne : ∀ x ∈ A, x ≠ [])
    (hdisj : ∀ x ∈ A, ∀ w, w ∈ x → w ∉ l) :
    linkStep [l[k], l[k + 1]] (A ++ [l.take (k + 1)])
      = some (A ++ [l.take (k + 2)]) := by
  have he : ([l[k], l[k + 1]] : List Nat) ≠ [] := by simp
  have hkl : k < l.length := by omega
  have hdisj2 : ∀ x ∈ A, ∀ w, w ∈ x → w ∉ [l[k], l[k + 1]] := by
    intro x hx w hw hmem
    have hwl : w ∈ l := by
      rcases (by simpa using hmem : w = l[k] ∨ w = l[k + 1]) with rfl | rfl
      · exact List.getElem_mem hkl
      · exact List.getElem_mem hk
    exact hdisj x hx w hw hwl
  have hnoneA := linkStep_none_of_disjoint he hAne hdisj2
  rw [linkStep_append_of_none ((linkStep_eq_none_iff _ _).mp hnoneA)]
  have h0 : 0 < l.length := by omega
  have hrule1 : ¬ headV [l[k], l[k + 1]] = headV (l.take (k + 1)) := by
    intro habs
    rw [show headV [l[k], l[k + 1]] = l[k] from rfl,
      headV_take (by omega) h0, headV_eq_getElem h0] at habs
    have hdup := no_interior_dup (hb l[0]) h0 hkl (by omega) rfl habs
    omega
  have hrule2 : headV [l[k], l[k + 1]] = lastV (l.take (k + 1)) := by
    rw [lastV_take hkl]
    rfl
  have hsingle : linkStep [l[k], l[k + 1]] [l.take (k + 1)]
      = some [(l.take (k + 1)).dropLast ++ [l[k], l[k + 1]]] := by
    conv_lhs => rw [linkStep]
    rw [if_neg hrule1, if_pos hrule2]
  rw [hsingle]
  rw [dropLast_take hkl, take_extend_two hk]
  rfl

/-- One bar element (2-list) rebuilt from an FE pair, as the caller of a
second `FEsort` run would supply it. -/
def toBar (p : Nat × Nat) : List Nat := [p.1, p.2]

/-- The bar list recovered from the polylines of a previous run: all
consecutive-vertex pairs, polyline by polyline, in order. -/
def recoveredEdges (F : List (List Nat)) : List (List Nat) :=
  (F.map (fun l => (pairsOf l).map toBar)).flatten

theorem passAux_rebuild_one {l : List Nat} (hb : ∀ w, incidL w (pairsOf l) ≤ 2)
    {A : List (List Nat)} (hAne : ∀ x ∈ A, x ≠ [])
    (hdisj : ∀ x ∈ A, ∀ w, w ∈ x → w ∉ l) (REST : List (List Nat)) :
    ∀ n k : Nat, 1 ≤ k → k + n + 1 = l.length →
    (passAux (((pairsOf l).drop k).map toBar ++ REST) (A ++ [l.take (k + 1)]) false).1
      = (passAux REST (A ++ [l]) false).1 := by
  intro n
  induction n with
  | zero =>
    intro k hk1 hlen
    have hdropnil : (pairsOf l).drop k = [] := by
      apply List.drop_eq_nil_of_le
      rw [pairsOf_length]
      omega
    rw [hdropnil]
    simp only [List.map_nil, List.nil_append]
    rw [List.take_of_length_le (by omega)]
  | succ n ih =>
    intro k hk1 hlen
    have hpk : k < (pairsOf l).length := by
      rw [pairsOf_length]
      omega
    have hk1l : k + 1 < l.length := by omega
    have hdropk : (pairsOf l).drop k = (l[k], l[k + 1]) :: (pairsOf l).drop (k + 1) := by
      rw [List.drop_eq_getElem_cons hpk, pairsOf_getElem l k hpk (by omega) hk1l]
    rw [hdropk]
    simp only [List.map_cons, List.cons_append,
      show toBar (l[k], l[k + 1]) = [l[k], l[k + 1]] from rfl]
    rw [passAux_link_eq (linkStep_rebuild_step hk1 hk1l hb hAne hdisj)]
    rw [passAux_fst_flag]
    exact ih (k + 1) (by omega) (by omega)

theorem passAux_rebuild_all : ∀ Fs A : List (List Nat),
    (∀ x ∈ Fs, 2 ≤ x.length) →
    (∀ x ∈ Fs, ∀ w, incidL w (pairsOf x) ≤ 2) →
    (∀ x ∈ A, x ≠ []) →
    (∀ x ∈ A, ∀ y ∈ Fs, ∀ w, w ∈ x → w ∉ y) →
    List.Pairwise (fun x y => ∀ w, w ∈ x → w ∉ y) Fs →
    (passAux (Fs.map (fun l => (pairsOf l).map toBar)).flatten A false).1 = A ++ Fs := by
  intro Fs
  induction Fs with
  | nil =>
    intro A _ _ _ _ _
    simp [passAux]
  | cons l Fs2 ih =>
    intro A hTwo hbnd hAne hdisj hpair
    have hl2 : 2 ≤ l.length := hTwo l (by simp)
    have h1l : 1 < l.length := by omega
    have hp0 : 0 < (pairsOf l).length := by
      rw [pairsOf_length]
      omega
    rw [List.map_cons, List.flatten_cons]
    have hsplit : (pairsOf l).map toBar
        = [l[0], l[1]] :: ((pairsOf l).drop 1).map toBar := by
      have hps : pairsOf l = (pairsOf l)[0] :: (pairsOf l).drop 1 := by
        conv_lhs => rw [← List.drop_zero (pairsOf l)]
        exact List.drop_eq_getElem_cons hp0
      conv_lhs => rw [hps]
      rw [List.map_cons, pairsOf_getElem l 0 hp0 (by omega) (by omega)]
      rfl
    have hdisjpair : ∀ x ∈ A, ∀ w, w ∈ x → w ∉ ([l[0], l[1]] : List Nat) := by
      intro x hx w hw hmem
      have hwl : w ∈ l := by
        rcases (by simpa using hmem : w = l[0] ∨ w = l[1]) with rfl | rfl
        · exact List.getElem_mem (by omega)
        · exact List.getElem_mem h1l
      exact hdisj x hx l (by simp) w hw hwl
    have hfirstlink : linkStep [l[0], l[1]] A = none :=
      linkStep_none_of_disjoint (by simp) hAne hdisjpair
    rw [hsplit, List.cons_append, passAux_nolink_eq hfirstlink]
    rw [show (A ++ [([l[0], l[1]] : List Nat)]) = A ++ [l.take 2] from by
      rw [take_two h1l]]
    have hdisjl : ∀ x ∈ A, ∀ w, w ∈ x → w ∉ l := by
      intro x hx w hw
      exact hdisj x hx l (by simp) w hw
    rw [passAux_rebuild_one (hbnd l (by simp)) hAne hdisjl _ (l.length - 2) 1
      (by omega) (by omega)]
    have hAl_ne : ∀ x ∈ A ++ [l], x ≠ [] := by
      intro x hx
      rcases List.mem_append.mp hx with h | h
      · exact hAne x h
      · rw [List.mem_singleton.mp h]
        intro habs
        rw [habs] at hl2
        simp at hl2
    have hpair2 := (List.pairwise_cons.mp hpair)
    have hAl_disj : ∀ x ∈ A ++ [l], ∀ y ∈ Fs2, ∀ w, w ∈ x → w ∉ y := by
      intro x hx y hy w hw
      rcases List.mem_append.mp hx with h | h
      · exact hdisj x h y (by simp [hy]) w hw
      · rw [List.mem_singleton.mp h] at hw
        exact hpair2.1 y hy w hw
    have := ih (A ++ [l]) (fun x hx => hTwo x (by simp [hx]))
      (fun x hx => hbnd x (by simp [hx])) hAl_ne hAl_disj hpair2.2
    rw [this, List.append_assoc]
    rfl

theorem onePass_fst_eq_passAux {conn : List (List Nat)} :
    (onePass conn).1 = (passAux conn [] false).1 := by
  cases conn with
  | nil => rfl
  | cons e rest =>
    rw [passAux_nolink_eq (show linkStep e [] = none from rfl)]
    rfl

theorem FEsortLoop_ne : ∀ (fuel : Nat) (conn : List (List Nat)), conn ≠ [] →
    FEsortLoop fuel conn ≠ [] := by
  intro fuel
  induction fuel with
  | zero => intro conn h; exact h
  | succ f ih =>
    intro conn h
    have hpos := onePass_length_pos h
    have hne : (onePass conn).1 ≠ [] := by
      intro habs
      rw [habs] at hpos
      simp at hpos
    rw [FEsortLoop]
    by_cases hp : (onePass conn).2
    · rw [if_pos hp]
      exact ih _ hne
    · rw [if_neg hp]
      exact hne

theorem FEsortPolylines_ne {E F : List (List Nat)} (h : FEsortPolylines E = some F) :
    F ≠ [] := by
  cases E with
  | nil => simp [FEsortPolylines] at h
  | cons e rest =>
    simp only [FEsortPolylines, Option.some.injEq] at h
    rw [← h]
    exact FEsortLoop_ne _ _ (by simp)

theorem fesort_polylines_idempotent {E F : List (List Nat)} (hvalid : ValidInput E)
    (hF : FEsortPolylines E = some F) :
    FEsortPolylines (recoveredEdges F) = some F := by
  have hbar : ∀ e ∈ E, isBar e := fun e he => (hvalid.1 e he).1
  have hTwoF : TwoLe F := FEsortPolylines_twoLe (twoLe_of_bars hbar) hF
  have hcons := FEsortPolylines_edgeMS (twoLe_of_bars hbar) hF
  have hfix : AtFixedPoint F := FEsortPolylines_fixed hF
  have hbound : ∀ w, incidM w (edgeMS F) ≤ 2 := by
    intro w
    rw [hcons, incidM_degCount hbar]
    exact hvalid.2.2 w
  have hbnd : ∀ x ∈ F, ∀ w, incidL w (pairsOf x) ≤ 2 := by
    intro x hx w
    exact le_trans (incid_mem_le hx w) (hbound w)
  have hpairdisj : List.Pairwise (fun x y => ∀ w, w ∈ x → w ∉ y) F := by
    rw [List.pairwise_iff_getElem]
    intro i j hi hj hij w hwi hwj
    exact absurd (poly_unique hTwoF hfix hbound hi hj hwi hwj) (by omega)
  have hFne : F ≠ [] := FEsortPolylines_ne hF
  have hRne : recoveredEdges F ≠ [] := by
    cases hFc : F with
    | nil => exact absurd hFc hFne
    | cons l F2 =>
      intro habs
      unfold recoveredEdges at habs
      rw [List.map_cons, List.flatten_cons] at habs
      rcases List.append_eq_nil.mp habs with ⟨h1, _⟩
      have hl2 : 2 ≤ l.length := hTwoF l (by rw [hFc]; simp)
      have := List.map_eq_nil_iff.mp h1
      have hplen := pairsOf_length l
      rw [this] at hplen
      simp at hplen
      omega
  have hpass : (onePass (recoveredEdges F)).1 = F := by
    rw [onePass_fst_eq_passAux]
    have := passAux_rebuild_all F [] hTwoF hbnd (by simp) (by simp) hpairdisj
    simpa [recoveredEdges] using this
  have hFP : FEsortPolylines (recoveredEdges F)
      = some (FEsortLoop (recoveredEdges F).length (recoveredEdges F)) := by
    cases hRc : recoveredEdges F with
    | nil => exact absurd hRc hRne
    | cons r rest => rfl
  obtain ⟨n, hn⟩ : ∃ n, (recoveredEdges F).length = n + 1 := by
    cases hRc : recoveredEdges F with
    | nil => exact absurd hRc hRne
    | cons r rest => exact ⟨rest.length, by simp⟩
  rw [hFP, hn, FEsortLoop]
  by_cases hp2 : (onePass (recoveredEdges F)).2
  · rw [if_pos hp2, hpass, FEsortLoop_of_fixed hfix]
  · rw [if_neg hp2, hpass]

theorem flatten_normPair_eq_edgeMS (F : List (List Nat)) :
    (((F.map pairsOf).flatten.map normPair : List (Nat × Nat)) : Multiset (Nat × Nat))
      = edgeMS F := by
  induction F with
  | nil => rfl
  | cons l rest ih =>
    rw [List.map_cons, List.flatten_cons, List.map_append, ← Multiset.coe_add, ih,
      edgeMS_cons]
    rfl

/-- C1: Edge conservation.  For every valid input edge set `E` (each bar a
pair of distinct vertices, no duplicate edge, every vertex of degree at
most 2), the multiset of direction-insensitive consecutive-vertex pairs
recoverable from the polylines returned by `FEsort E` equals the multiset
of direction-insensitive input edges exactly: no edge is invented,
dropped or duplicated. -/
theorem fesort_edge_conservation {E : List (List Nat)} (hvalid : ValidInput E)
    {out : List (List (Nat × Nat))} (hout : FEsort E = some out) :
    ((out.flatten.map normPair : List (Nat × Nat)) : Multiset (Nat × Nat)) = edgeMS E := by
  obtain ⟨F, hF, rfl⟩ : ∃ F, FEsortPolylines E = some F ∧ out = F.map pairsOf := by
    unfold FEsort at hout
    obtain ⟨F, hF, h2⟩ := Option.map_eq_some'.mp hout
    exact ⟨F, hF, h2.symm⟩
  have hbar : ∀ e ∈ E, isBar e := fun e he => (hvalid.1 e he).1
  have hcons := FEsortPolylines_edgeMS (twoLe_of_bars hbar) hF
  rw [← hcons]
  exact flatten_normPair_eq_edgeMS F

theorem fesort_edge_conservation_witness :
    ValidInput [[1,2],[2,3]] ∧
      ((([[(1,2),(2,3)]].flatten.map normPair : List (Nat × Nat)) : Multiset (Nat × Nat))
        = edgeMS [[1,2],[2,3]]) := by
  have hvalid : ValidInput [[1,2],[2,3]] :=
    ⟨by decide, by decide, degLE2_of_forall_mem (by decide)⟩
  exact ⟨hvalid, fesort_edge_conservation hvalid (by decide)⟩

/-- C2: Connectivity fidelity.  For an input whose elements are bars, with
every vertex of edge-degree at most 2, two vertices of the input appear in
a common polyline of the output of `FEsort` (stitching stage) if and only
if they are connected by a path in the graph formed by the input edges.
In particular disjoint components give separate polylines, and each
component is merged into one polyline by the fixed-point re-scanning
(e.g. `[[5,6],[7,8]]` yields `[[5,6],[7,8]]`). -/
theorem fesort_connectivity_fidelity {E F : List (List Nat)}
    (hbar : ∀ e ∈ E, isBar e) (hdeg : DegLE2 E)
    (hF : FEsortPolylines E = some F) {u v : Nat}
    (hu : u ∈ E.flatten) (hv : v ∈ E.flatten) :
    SamePolyline F u v ↔ ConnectedE E u v := by
  constructor
  · intro ⟨l, hl, hul, hvl⟩
    have hcons : edgeMS F = edgeMS E :=
      FEsortPolylines_edgeMS (twoLe_of_bars hbar) hF
    exact chain_connected (fun q hq => poly_pair_adj hbar hcons hl hq) hul hvl
  · intro h
    exact connected_same_poly hbar hdeg hF hu h

theorem fesort_connectivity_fidelity_witness :
    (SamePolyline [[5,6],[7,8]] 5 6 ↔ ConnectedE [[5,6],[7,8]] 5 6) ∧
      FEsortPolylines [[5,6],[7,8]] = some [[5,6],[7,8]] := by
  refine ⟨?_, by decide⟩
  exact fesort_connectivity_fidelity (by decide)
    (degLE2_of_forall_mem (by decide)) (by decide) (by decide) (by decide)

/-- C3 (counterexample): on the empty edge list, `FEsort` does not return
an empty output collection: the Python code raises an uncaught
`IndexError` at `oldConn.pop(0)` (modelled by `none`). -/
theorem fesort_empty_not_empty_output : ¬ (FEsort [] = some []) := by decide

/-- C3 (amended): calling `FEsort` with an empty edge list fails with an
uncaught exception (`pop from empty list`), modelled as `none`; empty
input is an error, not an empty output collection. -/
theorem fesort_empty_raises : FEsort [] = none ∧ FEsortPolylines [] = none := by
  exact ⟨rfl, rfl⟩

/-- C4 (counterexample): for the branch input `[(1,2),(1,3),(1,4)]`
(vertex 1 touched by three edges) the entire return value of the
stitching stage is the plain polyline list `[[3,1,2],[1,4]]`: the code
returns best-effort polylines but no degraded flag and no set of branch
vertices accompanies the output anywhere in `FEsort` or its caller. -/
theorem fesort_branch_returns_plain_polylines :
    FEsortPolylines [[1,2],[1,3],[1,4]] = some [[3,1,2],[1,4]] := by decide

/-- C4 (amended): on a branch input, `FEsort` silently returns
best-effort polylines (first-match wins); no degraded flag and no branch
vertex set exists in the code — the full result is the FE-format
polyline list. -/
theorem fesort_branch_best_effort :
    FEsort [[1,2],[1,3],[1,4]] = some [[(3,1),(1,2)],[(1,4)]] := by decide

/-- C5: Out-of-order absorption.  Feeding `[(1,2),(3,4),(2,3)]` in
exactly this order produces the single open polyline `[1,2,3,4]`: the
edge `(2,3)` is merged on a later pass of the fixed-point loop and the
two fragments are joined. -/
theorem fesort_out_of_order_absorption :
    FEsortPolylines [[1,2],[3,4],[2,3]] = some [[1,2,3,4]] ∧
      FEsort [[1,2],[3,4],[2,3]] = some [[(1,2),(2,3),(3,4)]] := by decide

/-- C6: Closed-loop handling.  For `[(1,2),(2,3),(3,1)]`, `FEsort`
produces exactly one polyline `[1,2,3,1]`, closed in the sense that its
head vertex equals its tail vertex, and all three input edges are
represented (the direction-insensitive edge multisets agree). -/
theorem fesort_closed_loop :
    FEsortPolylines [[1,2],[2,3],[3,1]] = some [[1,2,3,1]] ∧
      (∀ l ∈ [[1,2,3,1]], headV l = lastV l) ∧
      edgeMS [[1,2,3,1]] = edgeMS [[1,2],[2,3],[3,1]] := by decide

/-- C7 (counterexample): malformed input is not rejected: a self-loop
edge `(1,1)` and a duplicated edge `(1,2),(1,2)` are both accepted and
stitched into ordinary polylines; no validation failure of any kind is
reported before or during stitching. -/
theorem fesort_no_validation :
    FEsortPolylines [[1,1]] = some [[1,1]] ∧
      FEsortPolylines [[1,2],[1,2]] = some [[2,1,2]] := by decide

/-- C7 (amended): `FEsort` performs no input validation at all:
self-loops, duplicate edges and degenerate edges flow through the
stitching loop like any other input and produce a normal polyline
result instead of a rejection. -/
theorem fesort_malformed_processed :
    FEsort [[1,1],[1,2],[1,2]] = some [[(2,1),(1,1),(1,2)]] := by decide

/-- C8: Termination.  For every non-empty input list: a changed pass
strictly shrinks the working list; the loop reaches its fixed point
within `conn.length` passes; and giving the loop any more fuel than
`conn.length` does not change the result — the fuel in the embedding is
an artifact, the Python loop always terminates and returns. -/
theorem fesort_terminates {conn : List (List Nat)} (hne : conn ≠ []) :
    ((onePass conn).2 = true → (onePass conn).1.length < conn.length) ∧
      AtFixedPoint (FEsortLoop conn.length conn) ∧
      ∀ m, conn.length ≤ m → FEsortLoop m conn = FEsortLoop conn.length conn := by
  obtain ⟨h1, h2⟩ := FEsortLoop_fixed conn.length conn hne le_rfl
  exact ⟨onePass_decrease hne, h1, h2⟩

theorem fesort_terminates_witness :
    (((onePass [[1,2],[2,3]]).2 = true →
        (onePass [[1,2],[2,3]]).1.length < 2) ∧
      AtFixedPoint (FEsortLoop 2 [[1,2],[2,3]]) ∧
      ∀ m, 2 ≤ m → FEsortLoop m [[1,2],[2,3]] = FEsortLoop 2 [[1,2],[2,3]]) := by
  exact fesort_terminates (by decide)

/-- C9: Idempotence.  For every valid input edge set `E` (bars with
distinct endpoints, no duplicate edge, degree at most 2), recovering the
edges from `FEsort E`'s output (all consecutive-vertex pairs, polyline
by polyline, in order) and feeding them back into `FEsort` returns the
very same output — identical polylines in the identical order, which in
particular means equality up to direction reversal and reordering of the
collection. -/
theorem fesort_idempotent {E : List (List Nat)} (hvalid : ValidInput E)
    {out : List (List (Nat × Nat))} (hout : FEsort E = some out) :
    FEsort (out.flatten.map toBar) = some out := by
  obtain ⟨F, hF, rfl⟩ : ∃ F, FEsortPolylines E = some F ∧ out = F.map pairsOf := by
    unfold FEsort at hout
    obtain ⟨F, hF, h2⟩ := Option.map_eq_some'.mp hout
    exact ⟨F, hF, h2.symm⟩
  have hrec : (F.map pairsOf).flatten.map toBar = recoveredEdges F := by
    unfold recoveredEdges
    rw [List.map_flatten, List.map_map]
    rfl
  rw [hrec]
  unfold FEsort
  rw [fesort_polylines_idempotent hvalid hF]
  rfl

theorem fesort_idempotent_witness :
    FEsort (([[(1,2),(2,3)]] : List (List (Nat × Nat))).flatten.map toBar)
      = some [[(1,2),(2,3)]] := by
  have hvalid : ValidInput [[1,2],[2,3]] :=
    ⟨by decide, by decide, degLE2_of_forall_mem (by decide)⟩
  exact fesort_idempotent hvalid (by decide)

/-- C10: `FEsort` never returns `None`: for every non-empty input it
returns a list of per-curve FE connectivity arrays (despite its
docstring), so the fallback branch in `getCGNSsections` that would
substitute the unsorted connectivity and warn about an unsortable curve
can never execute. -/
theorem fesort_never_none {conn : List (List Nat)} (hne : conn ≠ []) :
    ∃ out, FEsort conn = some out ∧ sortedOrFallback conn = out := by
  cases conn with
  | nil => exact absurd rfl hne
  | cons e rest =>
    refine ⟨(FEsortLoop (e :: rest).length (e :: rest)).map pairsOf, rfl, rfl⟩

theorem fesort_never_none_witness :
    ∃ out, FEsort [[1,2]] = some out ∧ sortedOrFallback [[1,2]] = out :=
  fesort_never_none (by decide)
